import Mathlib

/-!
# Verification of the voting-service core (`src/server.js`)

A shallow embedding of the vote ingestion engine, aggregate cache,
stats snapshot and side-effect worker of `src/server.js`, together with
theorems settling the claims about them.

Modelling conventions:
* The Durable Store (`levelup` db) is an association list keyed by the
  identity (email); `db.get` on a missing key rejects, modelled as
  `none` and surfaced by the handler as an internal server error
  (the rejection is not caught in the handler).
* Timestamps (`new Date().toISOString()`) are opaque `Nat` parameters;
  the code only ever tests truthiness of `created`, modelled as `Option`.
* Fallible external effects (`db.put`, `votesQueue.createJob(..).save()`,
  `sendMail`, `fetch`) are driven by boolean oracles saying whether the
  call succeeds; the handler's `try`/`catch` structure determines what
  each outcome does.
* JavaScript's stable `Array.prototype.sort` with comparator
  `(a, b) => b.vote.length - a.vote.length` is modelled by a stable
  insertion sort descending on `vote.length`.
-/

/-- A vote record as stored in the Durable Store.  Registration
(`oauth`) writes only `id` and `email`; finalization (`vote`) writes
the spread of the payload plus `created` and `index`.  Fields absent
on a JavaScript object are `none` / `false`. -/
structure VoteRecord where
  id : String
  email : String
  nationality : Option String := none
  consentPrivacy : Option String := none
  consentAge : Option String := none
  confirmed : Bool := false
  created : Option Nat := none
  index : Option Nat := none
deriving DecidableEq, Repr

/-- The body of a PUT `/{cuid}` request.  `consentPrivacy` models the
field `'I accept privacy policy and terms of service'` and `consentAge`
models `'I am over 18 years old'`; a missing field is `none`. -/
structure Payload where
  email : String
  id : String
  nationality : String
  consentPrivacy : Option String := none
  consentAge : Option String := none
  confirmed : Bool := false
deriving DecidableEq, Repr

/-- Modelled from the spec: `extractPublicPart` lives in `common.js`,
which is not part of the sources; §4.2 of the spec says the public-safe
projection strips the identity and any field not meant for public
listing, so we keep only the non-identifying fields. -/
structure PublicVote where
  nationality : Option String
  index : Option Nat
  created : Option Nat
deriving DecidableEq, Repr

/-- Modelled from the spec: the public-safe projection of a record. -/
def extractPublicPart (v : VoteRecord) : PublicVote :=
  { nationality := v.nationality, index := v.index, created := v.created }

/-- One entry of the in-memory aggregate cache: a country aggregate,
`{ code, vote }` from `getIndex` / the `vote` handler. -/
structure Country where
  code : String
  vote : List PublicVote
deriving DecidableEq, Repr

/-- One per-country entry of the stats snapshot (`createStats`). -/
structure CountryStats where
  code : String
  count : Nat
  vote : List PublicVote
deriving DecidableEq, Repr

/-- The `global` part of the stats snapshot. -/
structure GlobalStats where
  count : Nat
deriving DecidableEq, Repr

/-- The stats snapshot produced by `createStats`. -/
structure Stats where
  global : GlobalStats
  country : List CountryStats
deriving DecidableEq, Repr

/-- The Durable Store: an association list identity → record;
`db.get`/`db.put` act on the first (only) entry with a given key. -/
abbrev Store := List (String × VoteRecord)

/-- `db.get`: the value at `k`, or `none` when the key is absent
(the promise rejects with a NotFound error in that case). -/
def storeGet (store : Store) (k : String) : Option VoteRecord :=
  match store with
  | [] => none
  | (k', v) :: rest => if k' == k then some v else storeGet rest k

/-- `db.put`: replace the entry at `k`, appending a fresh entry when
the key is absent. -/
def storePut (store : Store) (k : String) (v : VoteRecord) : Store :=
  match store with
  | [] => [(k, v)]
  | (k', v') :: rest =>
      if k' == k then (k, v) :: rest else (k', v') :: storePut rest k v

/-- The whole mutable state of the service: the Durable Store, the
aggregate `cache`, the current `stats` snapshot and the queue of
side-effect jobs created by `votesQueue.createJob(vote).save()`. -/
structure ServerState where
  store : Store
  cache : List Country
  stats : Stats
  jobs : List VoteRecord
deriving DecidableEq, Repr

/-- The outcome of the `vote` handler as seen by the HTTP client.
`internalServerError` models an uncaught rejection (Hapi turns a
non-Boom error, e.g. the NotFound rejection of `db.get`, into a 500). -/
inductive VoteResult where
  | forbidden
  | conflict
  | notAcceptable
  | internalServerError
  | noContent
deriving DecidableEq, Repr

/-- `createStats` from `src/server.js`: per-country code, count and the
first five public projections, plus the global count summed over the
cache. -/
def createStats (cache : List Country) : Stats :=
  { global := { count := (cache.map (fun c => c.vote.length)).sum },
    country := cache.map (fun c =>
      { code := c.code, count := c.vote.length, vote := c.vote.take 5 }) }

/-- `getIndex` from `src/server.js`: find the country aggregate for the
vote's nationality, pushing a fresh empty aggregate onto the cache when
it is missing, and return the updated cache together with
`country.vote.length + 1`. -/
def getIndex (cache : List Country) (nat : String) : List Country × Nat :=
  match cache.find? (fun c => c.code == nat) with
  | some c => (cache, c.vote.length + 1)
  | none => (cache ++ [{ code := nat, vote := [] }], 1)

/-- `country.vote = [extractPublicPart(vote), ...country.vote]`:
prepend a projection to the vote list of the (first) aggregate with the
given code. -/
def prependVote (cache : List Country) (code : String) (pv : PublicVote) :
    List Country :=
  match cache with
  | [] => []
  | c :: cs =>
      if c.code == code then { c with vote := pv :: c.vote } :: cs
      else c :: prependVote cs code pv

/-- Stable insertion placing `x` before the first aggregate with at
most as many votes, i.e. after every strictly larger one. -/
def insertCountry (x : Country) : List Country → List Country
  | [] => [x]
  | y :: ys =>
      if y.vote.length ≤ x.vote.length then x :: y :: ys
      else y :: insertCountry x ys

/-- `cache.sort((a, b) => b.vote.length - a.vote.length)`: JavaScript's
`Array.prototype.sort` is stable, so the semantics is the stable sort
by `vote.length` descending. -/
def sortByVotesDesc (l : List Country) : List Country :=
  l.foldr insertCountry []

/-- The finalized record `{...request.payload, created, index}` built
by the `vote` handler. -/
def newVoteRec (p : Payload) (now idx : Nat) : VoteRecord :=
  { id := p.id, email := p.email, nationality := some p.nationality,
    consentPrivacy := p.consentPrivacy, consentAge := p.consentAge,
    confirmed := p.confirmed, created := some now, index := some idx }

/-- The `vote` handler (PUT `/{cuid}`) from `src/server.js`, with the
authenticated session email, the request payload, the current time and
the success oracles for `db.put` and for the queue as inputs.  Returns
the HTTP-visible outcome and the state after the request. -/
def vote (st : ServerState) (sess : String) (p : Payload) (now : Nat)
    (putOk enqOk : Bool) : VoteResult × ServerState :=
  if p.email != sess then (.forbidden, st)
  else
    match storeGet st.store sess with
    | none => (.internalServerError, st)
    | some rec =>
      if p.id != rec.id || rec.created.isSome then (.conflict, st)
      else if p.consentPrivacy != some "on" || p.consentAge != some "on" then
        (.notAcceptable, st)
      else
        let gi := getIndex st.cache p.nationality
        let newVote : VoteRecord := newVoteRec p now gi.2
        let jobs1 := if enqOk then st.jobs ++ [newVote] else st.jobs
        if putOk then
          let store1 := storePut st.store sess newVote
          let cache2 := prependVote gi.1 p.nationality (extractPublicPart newVote)
          let cache3 := sortByVotesDesc cache2
          (.noContent, ⟨store1, cache3, createStats cache3, jobs1⟩)
        else
          (.noContent, ⟨st.store, gi.1, st.stats, jobs1⟩)

/-- The registration half of the `oauth` handler: when no record exists
for the verified email, store `{ id, email }` with a fresh opaque id;
otherwise leave the store untouched. -/
def oauthRegister (st : ServerState) (email newId : String) : ServerState :=
  match storeGet st.store email with
  | some _ => st
  | none =>
      { st with store := storePut st.store email { id := newId, email := email } }

/-- `listVotes` (GET `/votes/{countryCode}`): the country aggregate
found in the cache, i.e. the spec's `findCountry`. -/
def listVotes (st : ServerState) (c : String) : Option Country :=
  st.cache.find? (fun x => x.code == c)

/-- `listStats` (GET `/stats`): the current snapshot, i.e. the spec's
`snapshotStats`. -/
def listStats (st : ServerState) : Stats := st.stats

/-- One sequential operation against the service. -/
inductive Op where
  | register (email newId : String)
  | submit (sess : String) (p : Payload) (now : Nat) (putOk enqOk : Bool)
deriving DecidableEq, Repr

/-- Apply one operation to the state (the HTTP result is dropped). -/
def runOp (st : ServerState) : Op → ServerState
  | .register email newId => oauthRegister st email newId
  | .submit sess p now putOk enqOk => (vote st sess p now putOk enqOk).2

/-- The state at process start with an empty Durable Store: the cache
is populated from the (empty) store and `stats = createStats cache`. -/
def initState : ServerState :=
  { store := [], cache := [], stats := createStats [], jobs := [] }

/-- Run a sequence of operations from the start state. -/
def run (ops : List Op) : ServerState := ops.foldl runOp initState

/-! ## Derived counting functions used by the specification -/

/-- Does this stored record count as a finalized vote for country `c`? -/
def isFinalizedFor (c : String) (v : VoteRecord) : Bool :=
  v.created.isSome && v.nationality == some c

/-- The `index` values of the finalized records for country `c`, in
store order. -/
def finalizedIndices (store : Store) (c : String) : List Nat :=
  ((store.map Prod.snd).filter (isFinalizedFor c)).map (fun v => v.index.getD 0)

/-- How many finalized records for country `c` the store holds. -/
def countFinalized (store : Store) (c : String) : Nat :=
  ((store.map Prod.snd).filter (isFinalizedFor c)).length

/-- How many finalized records the store holds in total. -/
def totalFinalized (store : Store) : Nat :=
  ((store.map Prod.snd).filter (fun v => v.created.isSome)).length

/-- Total number of cached votes for country `c` (summed over every
aggregate with that code; when codes are distinct this is the length of
the one aggregate's list). -/
def cSum (cache : List Country) (c : String) : Nat :=
  ((cache.filter (fun x => x.code == c)).map (fun x => x.vote.length)).sum

/-- Total number of cached votes over all countries. -/
def totalLen (cache : List Country) : Nat :=
  (cache.map (fun x => x.vote.length)).sum

/-- The list `[1, 2, ..., n]`. -/
def range1 (n : Nat) : List Nat := (List.range n).map (· + 1)

/-- The vote list of the aggregate `findCountry` returns, `[]` when the
country is unknown. -/
def countryVotes (cache : List Country) (c : String) : List PublicVote :=
  ((cache.find? (fun x => x.code == c)).map Country.vote).getD []

/-! ## The side-effect worker -/

/-- The backup part of the worker configuration (`config.backup`);
`none` models an absent or empty (falsy) value. -/
structure BackupConfig where
  url : Option String
  token : Option String
deriving DecidableEq, Repr

/-- An authenticated POST the worker issues to the backup destination:
the full job record as the body and the bearer token. -/
structure FetchCall where
  url : String
  body : VoteRecord
  bearer : String
deriving DecidableEq, Repr

/-- What one run of the `votesQueue.process` worker did: whether the
mail send was attempted and delivered, and the backup call it issued,
if any, with its success flag. -/
structure JobOutcome where
  emailAttempted : Bool
  emailDelivered : Bool
  backupCall : Option FetchCall
  backupDelivered : Bool
deriving DecidableEq, Repr

/-- `votesQueue.process` from `src/server.js`: always attempt the
notification mail (failure caught and logged); then, when
`config.backup.url`, `config.backup.token` and `job.data.confirmed`
are all truthy, attempt the authenticated forward of the full record
(failure caught and logged).  `emailOk`/`backupOk` are the success
oracles of the two external calls. -/
def processJob (cfg : BackupConfig) (emailOk backupOk : Bool)
    (job : VoteRecord) : JobOutcome :=
  let doBackup := cfg.url.isSome && cfg.token.isSome && job.confirmed
  { emailAttempted := true
    emailDelivered := emailOk
    backupCall :=
      if doBackup then
        some { url := cfg.url.getD "", body := job, bearer := cfg.token.getD "" }
      else none
    backupDelivered := doBackup && backupOk }

/-! ## Concrete fixtures used to exercise the operations -/

/-- A fully consenting payload for identity `u` with token `i` voting
for country `c`. -/
def okPayload (u i c : String) : Payload :=
  { email := u, id := i, nationality := c,
    consentPrivacy := some "on", consentAge := some "on" }

/-- A successful submission operation (store write and enqueue both
succeed). -/
def voteOp (u i c : String) (t : Nat) : Op :=
  .submit u (okPayload u i c) t true true

/-- Six identities each casting one vote for `PL`. -/
def sixPL : List Op :=
  [ .register "a" "1", .register "b" "2", .register "c" "3",
    .register "d" "4", .register "e" "5", .register "f" "6",
    voteOp "a" "1" "PL" 1, voteOp "b" "2" "PL" 2, voteOp "c" "3" "PL" 3,
    voteOp "d" "4" "PL" 4, voteOp "e" "5" "PL" 5, voteOp "f" "6" "PL" 6 ]

/-- A run ending with `PL` and `DE` tied at two votes each, `PL`'s
aggregate having been created first. -/
def tieOps : List Op :=
  [ .register "a" "1", .register "b" "2", .register "c" "3", .register "d" "4",
    voteOp "a" "1" "PL" 1, voteOp "b" "2" "DE" 2,
    voteOp "c" "3" "DE" 3, voteOp "d" "4" "PL" 4 ]

/-- The order in which country aggregates were inserted into the cache
(the order of each country's first accepted vote), computed by
replaying the operations.  This is the spec's notion of "stable
insertion order" for tie-breaking. -/
def creationOrder (ops : List Op) : List String :=
  (ops.foldl
    (fun (acc : ServerState × List String) op =>
      let st' := runOp acc.1 op
      (st', acc.2 ++ (st'.cache.map Country.code).filter
        (fun c => !(acc.2.contains c))))
    (initState, [])).2

/-! ## Path lemmas for the `vote` handler -/

theorem vote_wrong_email (st : ServerState) (sess : String) (p : Payload)
    (now : Nat) (putOk enqOk : Bool) (h : (p.email != sess) = true) :
    vote st sess p now putOk enqOk = (.forbidden, st) := by
  simp [vote, h]

theorem vote_unregistered (st : ServerState) (sess : String) (p : Payload)
    (now : Nat) (putOk enqOk : Bool) (he : p.email = sess)
    (h : storeGet st.store sess = none) :
    vote st sess p now putOk enqOk = (.internalServerError, st) := by
  simp [vote, he, h]

theorem vote_conflict_eq (st : ServerState) (sess : String) (p : Payload)
    (now : Nat) (putOk enqOk : Bool) (rec : VoteRecord) (he : p.email = sess)
    (hr : storeGet st.store sess = some rec)
    (hc : (p.id != rec.id || rec.created.isSome) = true) :
    vote st sess p now putOk enqOk = (.conflict, st) := by
  simp [vote, he, hr, hc]

theorem vote_bad_consent (st : ServerState) (sess : String) (p : Payload)
    (now : Nat) (putOk enqOk : Bool) (rec : VoteRecord) (he : p.email = sess)
    (hr : storeGet st.store sess = some rec)
    (hc : (p.id != rec.id || rec.created.isSome) = false)
    (hcons : (p.consentPrivacy != some "on" || p.consentAge != some "on") = true) :
    vote st sess p now putOk enqOk = (.notAcceptable, st) := by
  simp only [vote, he, hr, hc, hcons]
  simp

theorem vote_accepted (st : ServerState) (sess : String) (p : Payload)
    (now : Nat) (enqOk : Bool) (rec : VoteRecord) (he : p.email = sess)
    (hr : storeGet st.store sess = some rec)
    (hc : (p.id != rec.id || rec.created.isSome) = false)
    (hcons : (p.consentPrivacy != some "on" || p.consentAge != some "on") = false) :
    vote st sess p now true enqOk =
      (.noContent,
       { store := storePut st.store sess
           (newVoteRec p now (getIndex st.cache p.nationality).2),
         cache := sortByVotesDesc (prependVote (getIndex st.cache p.nationality).1
           p.nationality (extractPublicPart (newVoteRec p now (getIndex st.cache p.nationality).2))),
         stats := createStats (sortByVotesDesc (prependVote (getIndex st.cache p.nationality).1
           p.nationality (extractPublicPart (newVoteRec p now (getIndex st.cache p.nationality).2)))),
         jobs := if enqOk then
             st.jobs ++ [newVoteRec p now (getIndex st.cache p.nationality).2]
           else st.jobs }) := by
  simp only [vote, he, hr, hc, hcons]
  simp

theorem vote_put_failed (st : ServerState) (sess : String) (p : Payload)
    (now : Nat) (enqOk : Bool) (rec : VoteRecord) (he : p.email = sess)
    (hr : storeGet st.store sess = some rec)
    (hc : (p.id != rec.id || rec.created.isSome) = false)
    (hcons : (p.consentPrivacy != some "on" || p.consentAge != some "on") = false) :
    vote st sess p now false enqOk =
      (.noContent,
       { store := st.store,
         cache := (getIndex st.cache p.nationality).1,
         stats := st.stats,
         jobs := if enqOk then
             st.jobs ++ [newVoteRec p now (getIndex st.cache p.nationality).2]
           else st.jobs }) := by
  simp only [vote, he, hr, hc, hcons]
  simp

/-! ## Durable Store lemmas -/

theorem storePut_of_get_none (store : Store) (k : String) (v : VoteRecord)
    (h : storeGet store k = none) : storePut store k v = store ++ [(k, v)] := by
  induction store with
  | nil => rfl
  | cons kv rest ih =>
    obtain ⟨k', v'⟩ := kv
    by_cases hk : (k' == k) = true
    · simp [storeGet, hk] at h
    · simp only [storeGet, hk, Bool.false_eq_true, if_false] at h
      simp only [storePut, hk, Bool.false_eq_true, if_false, List.cons_append,
        List.cons.injEq, true_and]
      exact ih h

theorem filter_map_snd_storePut (g : VoteRecord → Bool) (store : Store)
    (k : String) (v rec : VoteRecord) (hr : storeGet store k = some rec)
    (hg : g rec = false) :
    (((storePut store k v).map Prod.snd).filter g).Perm
      ((if g v then [v] else []) ++ ((store.map Prod.snd).filter g)) := by
  induction store with
  | nil => simp [storeGet] at hr
  | cons kv rest ih =>
    obtain ⟨k', v'⟩ := kv
    by_cases hk : (k' == k) = true
    · simp only [storeGet, hk, if_true, Option.some.injEq] at hr
      subst hr
      simp only [storePut, hk, if_true, List.map_cons, List.filter_cons, hg]
      by_cases hv : g v = true <;> simp [hv]
    · simp only [storeGet, hk, Bool.false_eq_true, if_false] at hr
      have hperm := ih hr
      simp only [storePut, hk, Bool.false_eq_true, if_false, List.map_cons,
        List.filter_cons]
      by_cases hv' : g v' = true
      · simp only [hv', if_true]
        refine (hperm.cons v').trans ?_
        exact List.perm_middle.symm
      · simp only [hv', Bool.false_eq_true, if_false]
        exact hperm

theorem countFinalized_storePut (store : Store) (k : String)
    (v rec : VoteRecord) (c : String) (hr : storeGet store k = some rec)
    (hcre : rec.created = none) :
    countFinalized (storePut store k v) c =
      (if isFinalizedFor c v then 1 else 0) + countFinalized store c := by
  have hg : isFinalizedFor c rec = false := by
    simp [isFinalizedFor, hcre]
  have h := (filter_map_snd_storePut (isFinalizedFor c) store k v rec hr hg).length_eq
  simp only [List.length_append] at h
  unfold countFinalized
  rw [h]
  by_cases hv : isFinalizedFor c v = true <;> simp [hv]

theorem finalizedIndices_storePut (store : Store) (k : String)
    (v rec : VoteRecord) (c : String) (hr : storeGet store k = some rec)
    (hcre : rec.created = none) :
    (finalizedIndices (storePut store k v) c).Perm
      ((if isFinalizedFor c v then [v.index.getD 0] else []) ++
        finalizedIndices store c) := by
  have hg : isFinalizedFor c rec = false := by
    simp [isFinalizedFor, hcre]
  have h := (filter_map_snd_storePut (isFinalizedFor c) store k v rec hr hg).map
    (fun v => v.index.getD 0)
  unfold finalizedIndices
  refine h.trans ?_
  rw [List.map_append]
  by_cases hv : isFinalizedFor c v = true <;> simp [hv]

theorem totalFinalized_storePut (store : Store) (k : String)
    (v rec : VoteRecord) (hr : storeGet store k = some rec)
    (hcre : rec.created = none) (hv : v.created.isSome = true) :
    totalFinalized (storePut store k v) = totalFinalized store + 1 := by
  have hg : (fun w : VoteRecord => w.created.isSome) rec = false := by
    simp [hcre]
  have h := (filter_map_snd_storePut (fun w => w.created.isSome) store k v rec hr hg).length_eq
  simp only [List.length_append] at h
  unfold totalFinalized
  rw [h, hv]
  simp [Nat.add_comm]

theorem countFinalized_append_unfinalized (store : Store) (k : String)
    (v : VoteRecord) (c : String) (hcre : v.created = none) :
    countFinalized (store ++ [(k, v)]) c = countFinalized store c := by
  unfold countFinalized
  simp [List.filter_append, isFinalizedFor, hcre]

theorem finalizedIndices_append_unfinalized (store : Store) (k : String)
    (v : VoteRecord) (c : String) (hcre : v.created = none) :
    finalizedIndices (store ++ [(k, v)]) c = finalizedIndices store c := by
  unfold finalizedIndices
  simp [List.filter_append, isFinalizedFor, hcre]

theorem totalFinalized_append_unfinalized (store : Store) (k : String)
    (v : VoteRecord) (hcre : v.created = none) :
    totalFinalized (store ++ [(k, v)]) = totalFinalized store := by
  unfold totalFinalized
  simp [List.filter_append, hcre]

/-! ## Aggregate cache lemmas -/

theorem cSum_append_empty (cache : List Country) (n c : String) :
    cSum (cache ++ [{ code := n, vote := [] }]) c = cSum cache c := by
  unfold cSum
  rw [List.filter_append, List.map_append, List.sum_append]
  by_cases h : ((({ code := n, vote := [] } : Country)).code == c) = true <;>
    simp [h]

theorem totalLen_append_empty (cache : List Country) (n : String) :
    totalLen (cache ++ [{ code := n, vote := [] }]) = totalLen cache := by
  unfold totalLen
  simp

theorem prependVote_map_code (cache : List Country) (n : String)
    (pv : PublicVote) :
    (prependVote cache n pv).map Country.code = cache.map Country.code := by
  induction cache with
  | nil => rfl
  | cons y ys ih =>
    by_cases h : (y.code == n) = true <;> simp [prependVote, h, ih]

theorem cSum_prependVote_self (cache : List Country) (n : String)
    (pv : PublicVote) (h : (cache.any (fun x => x.code == n)) = true) :
    cSum (prependVote cache n pv) n = cSum cache n + 1 := by
  induction cache with
  | nil => simp at h
  | cons y ys ih =>
    by_cases hy : (y.code == n) = true
    · unfold cSum prependVote
      simp only [hy, if_true, List.filter_cons, hy]
      simp [hy]
      omega
    · have h' : (ys.any (fun x => x.code == n)) = true := by
        simpa [hy] using h
      unfold cSum prependVote
      simp only [hy, Bool.false_eq_true, if_false, List.filter_cons]
      unfold cSum at ih
      exact ih h'

theorem cSum_prependVote_ne (cache : List Country) (n c : String)
    (pv : PublicVote) (h : c ≠ n) :
    cSum (prependVote cache n pv) c = cSum cache c := by
  induction cache with
  | nil => rfl
  | cons y ys ih =>
    by_cases hy : (y.code == n) = true
    · have hyn : y.code = n := by simpa using hy
      have hyc : (y.code == c) = false := by
        simp [hyn]
        exact fun hcn => h hcn.symm
      unfold cSum prependVote
      simp [hy, List.filter_cons, hyc]
    · unfold cSum prependVote
      simp only [hy, Bool.false_eq_true, if_false, List.filter_cons]
      by_cases hc : (y.code == c) = true <;> simp [hc]
      · unfold cSum at ih
        omega
      · exact ih

theorem totalLen_prependVote (cache : List Country) (n : String)
    (pv : PublicVote) (h : (cache.any (fun x => x.code == n)) = true) :
    totalLen (prependVote cache n pv) = totalLen cache + 1 := by
  induction cache with
  | nil => simp at h
  | cons y ys ih =>
    by_cases hy : (y.code == n) = true
    · unfold totalLen prependVote
      simp [hy]
      omega
    · have h' : (ys.any (fun x => x.code == n)) = true := by
        simpa [hy] using h
      unfold totalLen prependVote
      simp only [hy, Bool.false_eq_true, if_false, List.map_cons, List.sum_cons]
      unfold totalLen at ih
      rw [ih h']
      omega

theorem getIndex_fst_any (cache : List Country) (n : String) :
    ((getIndex cache n).1.any (fun x => x.code == n)) = true := by
  unfold getIndex
  cases hf : cache.find? (fun c => c.code == n) with
  | some c =>
    have hm := List.mem_of_find?_eq_some hf
    have hp := List.find?_some hf
    simp only [List.any_eq_true]
    exact ⟨c, hm, hp⟩
  | none =>
    simp [List.any_append]

theorem getIndex_fst_codes_nodup (cache : List Country) (n : String)
    (h : (cache.map Country.code).Nodup) :
    (((getIndex cache n).1).map Country.code).Nodup := by
  unfold getIndex
  cases hf : cache.find? (fun c => c.code == n) with
  | some c => simpa using h
  | none =>
    have hnone := List.find?_eq_none.mp hf
    simp only [List.map_append, List.map_cons, List.map_nil]
    rw [List.nodup_append]
    refine ⟨h, List.nodup_singleton _, ?_⟩
    intro a ha hb
    simp only [List.mem_singleton] at hb
    subst hb
    rcases List.mem_map.mp ha with ⟨x, hx, hcode⟩
    exact (hnone x hx) (by simp [hcode])

theorem insertCountry_perm (x : Country) (l : List Country) :
    (insertCountry x l).Perm (x :: l) := by
  induction l with
  | nil => exact List.Perm.refl _
  | cons y ys ih =>
    by_cases h : y.vote.length ≤ x.vote.length
    · simp [insertCountry, h]
    · simp only [insertCountry, if_neg h]
      exact (ih.cons y).trans (List.Perm.swap x y ys)

theorem sortByVotesDesc_perm (l : List Country) : (sortByVotesDesc l).Perm l := by
  induction l with
  | nil => exact List.Perm.refl _
  | cons y ys ih =>
    simp only [sortByVotesDesc, List.foldr_cons]
    exact (insertCountry_perm y _).trans (ih.cons y)

theorem insertCountry_pairwise (x : Country) (l : List Country)
    (h : l.Pairwise (fun a b => b.vote.length ≤ a.vote.length)) :
    (insertCountry x l).Pairwise (fun a b => b.vote.length ≤ a.vote.length) := by
  induction l with
  | nil => simp [insertCountry]
  | cons y ys ih =>
    rcases List.pairwise_cons.mp h with ⟨hy, hys⟩
    by_cases hle : y.vote.length ≤ x.vote.length
    · simp only [insertCountry, if_pos hle]
      refine List.pairwise_cons.mpr ⟨?_, h⟩
      intro z hz
      rcases List.mem_cons.mp hz with rfl | hz'
      · exact hle
      · exact le_trans (hy z hz') hle
    · simp only [insertCountry, if_neg hle]
      refine List.pairwise_cons.mpr ⟨?_, ih hys⟩
      intro z hz
      have hz2 : z ∈ x :: ys := (insertCountry_perm x ys).mem_iff.mp hz
      rcases List.mem_cons.mp hz2 with rfl | hz'
      · omega
      · exact hy z hz'

theorem sortByVotesDesc_pairwise (l : List Country) :
    (sortByVotesDesc l).Pairwise (fun a b => b.vote.length ≤ a.vote.length) := by
  induction l with
  | nil => simp [sortByVotesDesc]
  | cons y ys ih =>
    simp only [sortByVotesDesc, List.foldr_cons]
    exact insertCountry_pairwise y _ ih

theorem cSum_of_perm {l l' : List Country} (h : l.Perm l') (c : String) :
    cSum l c = cSum l' c :=
  List.Perm.sum_eq ((h.filter _).map _)

theorem totalLen_of_perm {l l' : List Country} (h : l.Perm l') :
    totalLen l = totalLen l' :=
  List.Perm.sum_eq (h.map _)

theorem cSum_eq_zero_of_forall (cache : List Country) (c : String)
    (h : ∀ x ∈ cache, (x.code == c) = false) : cSum cache c = 0 := by
  induction cache with
  | nil => rfl
  | cons y ys ih =>
    unfold cSum
    simp only [List.filter_cons, h y (List.mem_cons_self y ys),
      Bool.false_eq_true, if_false]
    exact ih fun x hx => h x (List.mem_cons_of_mem y hx)

theorem cSum_of_find?_none (cache : List Country) (c : String)
    (h : cache.find? (fun x => x.code == c) = none) : cSum cache c = 0 := by
  refine cSum_eq_zero_of_forall cache c fun x hx => ?_
  have := List.find?_eq_none.mp h x hx
  simpa using this

theorem cSum_of_find?_some (cache : List Country) (c : String) (x : Country)
    (hnd : (cache.map Country.code).Nodup)
    (h : cache.find? (fun z => z.code == c) = some x) :
    cSum cache c = x.vote.length := by
  induction cache with
  | nil => simp [List.find?] at h
  | cons y ys ih =>
    by_cases hy : (y.code == c) = true
    · rw [List.find?_cons_of_pos (p := fun z : Country => z.code == c) _ hy] at h
      injection h with h
      subst h
      have hnotin : y.code ∉ ys.map Country.code := (List.nodup_cons.mp hnd).1
      have hzero : cSum ys c = 0 := by
        refine cSum_eq_zero_of_forall ys c fun z hz => ?_
        by_contra hzc
        have hzc' : (z.code == c) = true := by
          revert hzc
          cases z.code == c <;> simp
        have hzc2 : z.code = c := by simpa using hzc'
        have hyc : y.code = c := by simpa using hy
        exact hnotin (by
          rw [hyc, ← hzc2]
          exact List.mem_map.mpr ⟨z, hz, rfl⟩)
      unfold cSum
      simp only [List.filter_cons, hy, if_true, List.map_cons, List.sum_cons]
      unfold cSum at hzero
      rw [hzero]
      omega
    · rw [List.find?_cons_of_neg (p := fun z : Country => z.code == c) _ (by simpa using hy)] at h
      have := ih (List.nodup_cons.mp hnd).2 h
      unfold cSum
      simp only [List.filter_cons, hy, Bool.false_eq_true, if_false]
      exact this

theorem unique_by_code {l : List Country} (hnd : (l.map Country.code).Nodup)
    {x y : Country} (hx : x ∈ l) (hy : y ∈ l) (h : x.code = y.code) : x = y :=
  List.inj_on_of_nodup_map hnd hx hy h

theorem countryVotes_of_perm {l l' : List Country}
    (hnd : (l.map Country.code).Nodup) (hp : l'.Perm l) (c : String) :
    countryVotes l' c = countryVotes l c := by
  unfold countryVotes
  cases hf : l.find? (fun x => x.code == c) with
  | none =>
    have hnone : l'.find? (fun x => x.code == c) = none := by
      rw [List.find?_eq_none] at hf ⊢
      exact fun x hx => hf x (hp.subset hx)
    simp [hnone]
  | some x =>
    have hx : x ∈ l := List.mem_of_find?_eq_some hf
    have hpx := List.find?_some hf
    have hx' : x ∈ l' := hp.mem_iff.mpr hx
    cases hf' : l'.find? (fun z => z.code == c) with
    | none =>
      rw [List.find?_eq_none] at hf'
      exact absurd hpx (hf' x hx')
    | some y =>
      have hy : y ∈ l := hp.subset (List.mem_of_find?_eq_some hf')
      have hpy := List.find?_some hf'
      have hxy : y = x := by
        refine unique_by_code hnd hy hx ?_
        have h1 : y.code = c := by simpa using hpy
        have h2 : x.code = c := by simpa using hpx
        rw [h1, h2]
      rw [hxy]

theorem countryVotes_prependVote (cache : List Country) (n : String)
    (pv : PublicVote) (h : (cache.any (fun x => x.code == n)) = true) :
    countryVotes (prependVote cache n pv) n = pv :: countryVotes cache n := by
  induction cache with
  | nil => simp at h
  | cons y ys ih =>
    by_cases hy : (y.code == n) = true
    · unfold countryVotes prependVote
      simp only [hy, if_true]
      rw [List.find?_cons_of_pos (p := fun x : Country => x.code == n) _ (by simpa using hy),
        List.find?_cons_of_pos (p := fun x : Country => x.code == n) _ hy]
      rfl
    · have h' : (ys.any (fun x => x.code == n)) = true := by
        simpa [hy] using h
      unfold countryVotes prependVote
      simp only [hy, Bool.false_eq_true, if_false]
      rw [List.find?_cons_of_neg (p := fun x : Country => x.code == n) _ (by simpa using hy),
        List.find?_cons_of_neg (p := fun x : Country => x.code == n) _ (by simpa using hy)]
      exact ih h'

theorem find?_append_fresh (cache : List Country) (n : String)
    (hf : cache.find? (fun c => c.code == n) = none) :
    (cache ++ [({ code := n, vote := [] } : Country)]).find? (fun c => c.code == n) =
      some { code := n, vote := [] } := by
  induction cache with
  | nil => simp [List.find?]
  | cons y ys ih =>
    have hy : ¬ ((fun c : Country => c.code == n) y = true) := by
      have := List.find?_eq_none.mp hf y (List.mem_cons_self y ys)
      simpa using this
    have hys : ys.find? (fun c => c.code == n) = none := by
      rw [List.find?_eq_none] at hf ⊢
      exact fun x hx => hf x (List.mem_cons_of_mem y hx)
    rw [List.cons_append,
      List.find?_cons_of_neg (p := fun c : Country => c.code == n) _ hy]
    exact ih hys

theorem countryVotes_getIndex (cache : List Country) (n : String) :
    countryVotes (getIndex cache n).1 n = countryVotes cache n := by
  unfold getIndex
  cases hf : cache.find? (fun c => c.code == n) with
  | some c => rfl
  | none =>
    unfold countryVotes
    rw [hf, find?_append_fresh cache n hf]
    rfl

theorem getIndex_snd_eq (cache : List Country) (n : String) :
    (getIndex cache n).2 = (countryVotes cache n).length + 1 := by
  unfold getIndex countryVotes
  cases hf : cache.find? (fun c => c.code == n) <;> simp [hf]

theorem cSum_eq_countryVotes_length (cache : List Country) (c : String)
    (hnd : (cache.map Country.code).Nodup) :
    cSum cache c = (countryVotes cache c).length := by
  unfold countryVotes
  cases hf : cache.find? (fun x => x.code == c) with
  | none => simp [cSum_of_find?_none cache c hf]
  | some x => simp [cSum_of_find?_some cache c x hnd hf]

/-! ## `createStats` lemmas -/

theorem createStats_global (l : List Country) :
    (createStats l).global.count = totalLen l := rfl

theorem createStats_country_counts (l : List Country) :
    ((createStats l).country.map CountryStats.count).sum = totalLen l := by
  unfold createStats totalLen
  simp [List.map_map]
  rfl

theorem createStats_sorted (l : List Country)
    (h : l.Pairwise (fun a b => b.vote.length ≤ a.vote.length)) :
    (createStats l).country.Pairwise (fun a b => b.count ≤ a.count) := by
  unfold createStats
  simp only [List.pairwise_map]
  exact h

theorem createStats_vote_le (l : List Country) :
    ∀ cs ∈ (createStats l).country, cs.vote.length ≤ 5 := by
  intro cs hcs
  unfold createStats at hcs
  simp only [List.mem_map] at hcs
  rcases hcs with ⟨c, _, rfl⟩
  simp [List.length_take_le]

/-! ## Small helper lemmas for the step proof -/

theorem cSum_getIndex_fst (cache : List Country) (n c : String) :
    cSum (getIndex cache n).1 c = cSum cache c := by
  unfold getIndex
  cases hf : cache.find? (fun x => x.code == n) with
  | some x => rfl
  | none => exact cSum_append_empty cache n c

theorem totalLen_getIndex_fst (cache : List Country) (n : String) :
    totalLen (getIndex cache n).1 = totalLen cache := by
  unfold getIndex
  cases hf : cache.find? (fun x => x.code == n) with
  | some x => rfl
  | none => exact totalLen_append_empty cache n

theorem pairwise_getIndex_fst (cache : List Country) (n : String)
    (h : cache.Pairwise (fun a b => b.vote.length ≤ a.vote.length)) :
    ((getIndex cache n).1).Pairwise (fun a b => b.vote.length ≤ a.vote.length) := by
  unfold getIndex
  cases hf : cache.find? (fun c => c.code == n) with
  | some c => exact h
  | none =>
    rw [List.pairwise_append]
    refine ⟨h, List.pairwise_singleton _ _, fun a _ b hb => ?_⟩
    simp only [List.mem_singleton] at hb
    subst hb
    simp

theorem isFinalizedFor_newVoteRec (c : String) (p : Payload) (now idx : Nat) :
    isFinalizedFor c (newVoteRec p now idx) = (p.nationality == c) := by
  simp [isFinalizedFor, newVoteRec]

theorem range1_succ (n : Nat) : range1 (n + 1) = range1 n ++ [n + 1] := by
  simp [range1, List.range_succ]

/-! ## The reachable-state invariant -/

/-- Invariant of every state reachable by a sequence of operations:
cache codes are distinct; per-country cached totals agree with the
finalized records of the Durable Store; the per-country index values
are a permutation of `1..n`; the stats snapshot is internally
consistent, matches the store total and is sorted descending; the
cache itself is sorted descending. -/
structure GoodState (st : ServerState) : Prop where
  codesNodup : (st.cache.map Country.code).Nodup
  cacheCount : ∀ c, cSum st.cache c = countFinalized st.store c
  idxPerm : ∀ c,
    (finalizedIndices st.store c).Perm (range1 (countFinalized st.store c))
  lenTotal : totalLen st.cache = totalFinalized st.store
  statsSum : st.stats.global.count = (st.stats.country.map CountryStats.count).sum
  statsTotal : st.stats.global.count = totalFinalized st.store
  cacheSorted : st.cache.Pairwise (fun a b => b.vote.length ≤ a.vote.length)
  statsSorted : st.stats.country.Pairwise (fun a b => b.count ≤ a.count)

theorem goodState_init : GoodState initState := by
  refine ⟨?_, ?_, ?_, ?_, ?_, ?_, ?_, ?_⟩ <;>
    simp [initState, cSum, countFinalized, finalizedIndices, range1,
      totalLen, totalFinalized, createStats]

theorem goodState_register (st : ServerState) (email newId : String)
    (h : GoodState st) : GoodState (oauthRegister st email newId) := by
  unfold oauthRegister
  cases hg : storeGet st.store email with
  | some v => exact h
  | none =>
    rw [storePut_of_get_none st.store email _ hg]
    refine ⟨h.codesNodup, ?_, ?_, ?_, h.statsSum, ?_, h.cacheSorted, h.statsSorted⟩
    · intro c
      rw [countFinalized_append_unfinalized st.store email _ c rfl]
      exact h.cacheCount c
    · intro c
      rw [finalizedIndices_append_unfinalized st.store email _ c rfl,
        countFinalized_append_unfinalized st.store email _ c rfl]
      exact h.idxPerm c
    · rw [totalFinalized_append_unfinalized st.store email _ rfl]
      exact h.lenTotal
    · rw [totalFinalized_append_unfinalized st.store email _ rfl]
      exact h.statsTotal

theorem goodState_submit (st : ServerState) (sess : String) (p : Payload)
    (now : Nat) (putOk enqOk : Bool) (h : GoodState st) :
    GoodState (vote st sess p now putOk enqOk).2 := by
  by_cases he : (p.email != sess) = true
  · rw [vote_wrong_email st sess p now putOk enqOk he]
    exact h
  · have he' : p.email = sess := by simpa using he
    cases hr : storeGet st.store sess with
    | none =>
      rw [vote_unregistered st sess p now putOk enqOk he' hr]
      exact h
    | some rec =>
      by_cases hc : (p.id != rec.id || rec.created.isSome) = true
      · rw [vote_conflict_eq st sess p now putOk enqOk rec he' hr hc]
        exact h
      · have hc' : (p.id != rec.id || rec.created.isSome) = false :=
          Bool.eq_false_iff.mpr hc
        by_cases hcons :
            (p.consentPrivacy != some "on" || p.consentAge != some "on") = true
        · rw [vote_bad_consent st sess p now putOk enqOk rec he' hr hc' hcons]
          exact h
        · have hcons' :
              (p.consentPrivacy != some "on" || p.consentAge != some "on") = false :=
            Bool.eq_false_iff.mpr hcons
          have hrecCreated : rec.created = none := by
            cases hcr : rec.created with
            | none => rfl
            | some t => rw [hcr] at hc'; simp at hc'
          cases putOk with
          | false =>
            rw [vote_put_failed st sess p now enqOk rec he' hr hc' hcons']
            refine ⟨getIndex_fst_codes_nodup st.cache p.nationality h.codesNodup,
              ?_, h.idxPerm, ?_, h.statsSum, h.statsTotal,
              pairwise_getIndex_fst st.cache p.nationality h.cacheSorted,
              h.statsSorted⟩
            · intro c
              rw [cSum_getIndex_fst st.cache p.nationality c]
              exact h.cacheCount c
            · rw [totalLen_getIndex_fst st.cache p.nationality]
              exact h.lenTotal
          | true =>
            rw [vote_accepted st sess p now enqOk rec he' hr hc' hcons']
            have hany := getIndex_fst_any st.cache p.nationality
            have hidx : (getIndex st.cache p.nationality).2 =
                countFinalized st.store p.nationality + 1 := by
              rw [getIndex_snd_eq, ← cSum_eq_countryVotes_length st.cache
                p.nationality h.codesNodup, h.cacheCount p.nationality]
            have hnvCreated :
                (newVoteRec p now (getIndex st.cache p.nationality).2).created.isSome
                  = true := rfl
            have perm3 := sortByVotesDesc_perm
              (prependVote (getIndex st.cache p.nationality).1 p.nationality
                (extractPublicPart (newVoteRec p now (getIndex st.cache p.nationality).2)))
            have codes2 := prependVote_map_code (getIndex st.cache p.nationality).1
              p.nationality
              (extractPublicPart (newVoteRec p now (getIndex st.cache p.nationality).2))
            have nodup1 := getIndex_fst_codes_nodup st.cache p.nationality h.codesNodup
            have nodup2 : ((prependVote (getIndex st.cache p.nationality).1 p.nationality
                (extractPublicPart (newVoteRec p now (getIndex st.cache p.nationality).2))).map
                  Country.code).Nodup := by
              rw [codes2]; exact nodup1
            have nodup3 : ((sortByVotesDesc (prependVote (getIndex st.cache p.nationality).1
                p.nationality (extractPublicPart
                  (newVoteRec p now (getIndex st.cache p.nationality).2)))).map
                  Country.code).Nodup :=
              (List.Perm.nodup_iff (perm3.map Country.code)).mpr nodup2
            refine ⟨nodup3, ?_, ?_, ?_, ?_, ?_, sortByVotesDesc_pairwise _,
              createStats_sorted _ (sortByVotesDesc_pairwise _)⟩
            · -- cacheCount
              intro c
              rw [cSum_of_perm perm3 c]
              rw [countFinalized_storePut st.store sess _ rec c hr hrecCreated,
                isFinalizedFor_newVoteRec]
              by_cases hcn : c = p.nationality
              · subst hcn
                rw [cSum_prependVote_self _ _ _ hany, cSum_getIndex_fst,
                  h.cacheCount p.nationality]
                simp [Nat.add_comm]
              · have hne : (p.nationality == c) = false := by
                  simp only [beq_eq_false_iff_ne, ne_eq]
                  exact fun e => hcn e.symm
                rw [cSum_prependVote_ne _ _ _ _ hcn, cSum_getIndex_fst,
                  h.cacheCount c, hne]
                simp
            · -- idxPerm
              intro c
              have hput := finalizedIndices_storePut st.store sess
                (newVoteRec p now (getIndex st.cache p.nationality).2) rec c hr hrecCreated
              rw [isFinalizedFor_newVoteRec] at hput
              rw [countFinalized_storePut st.store sess _ rec c hr hrecCreated,
                isFinalizedFor_newVoteRec]
              by_cases hcn : c = p.nationality
              · subst hcn
                simp only [beq_self_eq_true, if_true] at hput ⊢
                refine hput.trans ?_
                have hgd : (newVoteRec p now
                    (getIndex st.cache p.nationality).2).index.getD 0 =
                    countFinalized st.store p.nationality + 1 := by
                  simp [newVoteRec, hidx]
                rw [hgd]
                rw [Nat.add_comm 1 (countFinalized st.store p.nationality), range1_succ]
                refine List.Perm.trans ?_ List.perm_append_comm
                simp only [List.singleton_append]
                exact (h.idxPerm p.nationality).cons _
              · have hne : (p.nationality == c) = false := by
                  simp only [beq_eq_false_iff_ne, ne_eq]
                  exact fun e => hcn e.symm
                rw [hne] at hput
                simp only [hne, Bool.false_eq_true, if_false, List.nil_append,
                  Nat.zero_add] at hput ⊢
                exact hput.trans (h.idxPerm c)
            · -- lenTotal
              rw [← totalLen_of_perm perm3.symm, totalLen_prependVote _ _ _ hany,
                totalLen_getIndex_fst, h.lenTotal,
                totalFinalized_storePut st.store sess _ rec hr hrecCreated hnvCreated]
            · -- statsSum
              rw [createStats_global, createStats_country_counts]
            · -- statsTotal
              rw [createStats_global, ← totalLen_of_perm perm3.symm,
                totalLen_prependVote _ _ _ hany, totalLen_getIndex_fst, h.lenTotal,
                totalFinalized_storePut st.store sess _ rec hr hrecCreated hnvCreated]

theorem goodState_runOp (st : ServerState) (op : Op) (h : GoodState st) :
    GoodState (runOp st op) := by
  cases op with
  | register email newId => exact goodState_register st email newId h
  | submit sess p now putOk enqOk => exact goodState_submit st sess p now putOk enqOk h

theorem goodState_run (ops : List Op) : GoodState (run ops) := by
  unfold run
  have : ∀ st, GoodState st → GoodState (ops.foldl runOp st) := by
    induction ops with
    | nil => exact fun st h => h
    | cons op rest ih =>
      exact fun st h => ih (runOp st op) (goodState_runOp st op h)
  exact this initState goodState_init

/-! ## Further helper lemmas -/

theorem storeGet_storePut_self (store : Store) (k : String) (v : VoteRecord) :
    storeGet (storePut store k v) k = some v := by
  induction store with
  | nil => simp [storePut, storeGet]
  | cons kv rest ih =>
    obtain ⟨k', v'⟩ := kv
    by_cases hk : (k' == k) = true
    · simp [storePut, storeGet, hk]
    · simp only [storePut, hk, Bool.false_eq_true, if_false]
      simp only [storeGet, hk, Bool.false_eq_true, if_false]
      exact ih

theorem mem_range1 (i n : Nat) (h : i ∈ range1 n) : 1 ≤ i ∧ i ≤ n := by
  unfold range1 at h
  rcases List.mem_map.mp h with ⟨j, hj, rfl⟩
  have := List.mem_range.mp hj
  omega

/-! ## Claim theorems -/

/-- C2: for a registered identity whose payload email matches the
authenticated session, `vote` returns Conflict exactly when the payload
id differs from the stored record's id or the stored record is already
finalized; and in the Conflict case the whole state (store, cache,
stats, job queue) is left untouched. -/
theorem submit_conflict_iff (st : ServerState) (sess : String) (p : Payload)
    (now : Nat) (putOk enqOk : Bool) (rec : VoteRecord)
    (hreg : storeGet st.store sess = some rec) (he : p.email = sess) :
    ((vote st sess p now putOk enqOk).1 = .conflict ↔
      (p.id ≠ rec.id ∨ rec.created.isSome = true)) ∧
    ((p.id ≠ rec.id ∨ rec.created.isSome = true) →
      (vote st sess p now putOk enqOk).2 = st) := by
  have hbool : (p.id != rec.id || rec.created.isSome) = true ↔
      (p.id ≠ rec.id ∨ rec.created.isSome = true) := by
    simp [bne_iff_ne]
  by_cases hc : (p.id != rec.id || rec.created.isSome) = true
  · rw [vote_conflict_eq st sess p now putOk enqOk rec he hreg hc]
    exact ⟨iff_of_true rfl (hbool.mp hc), fun _ => rfl⟩
  · have hcp : ¬(p.id ≠ rec.id ∨ rec.created.isSome = true) :=
      fun hx => hc (hbool.mpr hx)
    have hc' : (p.id != rec.id || rec.created.isSome) = false :=
      Bool.eq_false_iff.mpr hc
    have hne : (vote st sess p now putOk enqOk).1 ≠ .conflict := by
      by_cases hcons :
          (p.consentPrivacy != some "on" || p.consentAge != some "on") = true
      · rw [vote_bad_consent st sess p now putOk enqOk rec he hreg hc' hcons]
        simp
      · have hcons' :
            (p.consentPrivacy != some "on" || p.consentAge != some "on") = false :=
          Bool.eq_false_iff.mpr hcons
        cases putOk with
        | false =>
          rw [vote_put_failed st sess p now enqOk rec he hreg hc' hcons']
          simp
        | true =>
          rw [vote_accepted st sess p now enqOk rec he hreg hc' hcons']
          simp
    exact ⟨iff_of_false hne hcp, fun hx => absurd hx hcp⟩

/-- Witness for C2: a wrong id against a registered, unfinalized
identity yields Conflict. -/
theorem submit_conflict_iff_witness :
    storeGet (run [Op.register "a" "x"]).store "a" =
      some { id := "x", email := "a" } ∧
    (vote (run [Op.register "a" "x"]) "a"
        { email := "a", id := "y", nationality := "PL" } 0 true true).1 =
      .conflict :=
  ⟨by decide,
   (submit_conflict_iff (run [Op.register "a" "x"]) "a"
      { email := "a", id := "y", nationality := "PL" } 0 true true
      { id := "x", email := "a" } (by decide) rfl).1.mpr
     (Or.inl (by decide))⟩

/-- C5: for an otherwise valid submission (registered identity,
matching email and id, not yet finalized), a consent field that is not
the sentinel `'on'` yields NotAcceptable, and nothing at all changes. -/
theorem missing_consent_not_acceptable (st : ServerState) (sess : String)
    (p : Payload) (now : Nat) (putOk enqOk : Bool) (rec : VoteRecord)
    (hreg : storeGet st.store sess = some rec) (he : p.email = sess)
    (hid : p.id = rec.id) (hunf : rec.created = none)
    (hbad : p.consentPrivacy ≠ some "on" ∨ p.consentAge ≠ some "on") :
    (vote st sess p now putOk enqOk).1 = .notAcceptable ∧
    (vote st sess p now putOk enqOk).2 = st := by
  have hc' : (p.id != rec.id || rec.created.isSome) = false := by
    simp [hid, hunf]
  have hcons :
      (p.consentPrivacy != some "on" || p.consentAge != some "on") = true := by
    rcases hbad with hb | hb <;> simp [hb]
  rw [vote_bad_consent st sess p now putOk enqOk rec he hreg hc' hcons]
  exact ⟨rfl, rfl⟩

/-- Witness for C5: a payload with both consent fields absent. -/
theorem missing_consent_not_acceptable_witness :
    (vote (run [Op.register "a" "x"]) "a"
        { email := "a", id := "x", nationality := "PL" } 0 true true).1 =
      .notAcceptable ∧
    (vote (run [Op.register "a" "x"]) "a"
        { email := "a", id := "x", nationality := "PL" } 0 true true).2 =
      run [Op.register "a" "x"] :=
  missing_consent_not_acceptable (run [Op.register "a" "x"]) "a"
    { email := "a", id := "x", nationality := "PL" } 0 true true
    { id := "x", email := "a" } (by decide) rfl rfl rfl (Or.inl (by decide))

/-- C8 counterexample: submitting for an identity with no record makes
`db.get` reject; the handler does not catch it, so the client sees an
internal server error (500), not the forbidden-class error the claim
asserts. -/
theorem unregistered_is_server_error_cex :
    (vote initState "a" { email := "a", id := "x", nationality := "PL" }
        0 true true).1 = .internalServerError ∧
    ¬ (vote initState "a" { email := "a", id := "x", nationality := "PL" }
        0 true true).1 = .forbidden := by
  decide

/-- C8 amended: a submission for an unregistered identity fails — the
store's NotFound rejection propagates uncaught and is surfaced as an
internal server error — and no state changes. -/
theorem unregistered_internal_error (st : ServerState) (sess : String)
    (p : Payload) (now : Nat) (putOk enqOk : Bool) (he : p.email = sess)
    (habs : storeGet st.store sess = none) :
    vote st sess p now putOk enqOk = (.internalServerError, st) :=
  vote_unregistered st sess p now putOk enqOk he habs

/-- Witness for the amended C8. -/
theorem unregistered_internal_error_witness :
    vote initState "a" { email := "a", id := "x", nationality := "PL" }
        0 true true = (.internalServerError, initState) :=
  unregistered_internal_error initState "a"
    { email := "a", id := "x", nationality := "PL" } 0 true true rfl (by decide)

/-- C3 counterexample: when `db.put` fails the handler still answers
success (204) and still enqueues the side-effect job, contrary to the
claim that the failure is surfaced and nothing is enqueued. -/
theorem store_failure_not_surfaced_cex :
    (vote (run [Op.register "a" "x"]) "a" (okPayload "a" "x" "PL")
        5 false true).1 = .noContent ∧
    (vote (run [Op.register "a" "x"]) "a" (okPayload "a" "x" "PL")
        5 false true).2.jobs ≠ [] := by
  decide

/-- C3 amended: when the Durable Store write fails, the error is only
logged: the store, the stats snapshot and every vote list are unchanged
(at most an empty aggregate for a new country was pushed by
`getIndex`), but the job is still enqueued when the queue accepts it
and the response is still success. -/
theorem store_failure_logged_only (st : ServerState) (sess : String)
    (p : Payload) (now : Nat) (enqOk : Bool) (rec : VoteRecord)
    (hreg : storeGet st.store sess = some rec) (he : p.email = sess)
    (hid : p.id = rec.id) (hunf : rec.created = none)
    (h1 : p.consentPrivacy = some "on") (h2 : p.consentAge = some "on") :
    vote st sess p now false enqOk =
      (.noContent,
       { store := st.store,
         cache := (getIndex st.cache p.nationality).1,
         stats := st.stats,
         jobs := if enqOk then
             st.jobs ++ [newVoteRec p now (getIndex st.cache p.nationality).2]
           else st.jobs }) := by
  have hc' : (p.id != rec.id || rec.created.isSome) = false := by
    simp [hid, hunf]
  have hcons' :
      (p.consentPrivacy != some "on" || p.consentAge != some "on") = false := by
    simp [h1, h2]
  exact vote_put_failed st sess p now enqOk rec he hreg hc' hcons'

/-- Witness for the amended C3. -/
theorem store_failure_logged_only_witness :
    vote (run [Op.register "a" "x"]) "a" (okPayload "a" "x" "PL") 5 false true =
      (.noContent,
       { store := (run [Op.register "a" "x"]).store,
         cache := (getIndex (run [Op.register "a" "x"]).cache "PL").1,
         stats := (run [Op.register "a" "x"]).stats,
         jobs := if true then
             (run [Op.register "a" "x"]).jobs ++
               [newVoteRec (okPayload "a" "x" "PL") 5
                 (getIndex (run [Op.register "a" "x"]).cache "PL").2]
           else (run [Op.register "a" "x"]).jobs }) :=
  store_failure_logged_only (run [Op.register "a" "x"]) "a"
    (okPayload "a" "x" "PL") 5 true { id := "x", email := "a" }
    (by decide) rfl rfl rfl rfl rfl

/-- C4: once the guards pass and the store write commits
(`putOk = true`), the response is success (204, no content) and the
finalized record is in the store — for either outcome of the enqueue,
so an enqueue failure never changes the response. -/
theorem commit_implies_success_response (st : ServerState) (sess : String)
    (p : Payload) (now : Nat) (rec : VoteRecord)
    (hreg : storeGet st.store sess = some rec) (he : p.email = sess)
    (hid : p.id = rec.id) (hunf : rec.created = none)
    (h1 : p.consentPrivacy = some "on") (h2 : p.consentAge = some "on") :
    ∀ enqOk : Bool,
      (vote st sess p now true enqOk).1 = .noContent ∧
      (vote st sess p now true enqOk).2.store =
        storePut st.store sess
          (newVoteRec p now (getIndex st.cache p.nationality).2) := by
  intro enqOk
  have hc' : (p.id != rec.id || rec.created.isSome) = false := by
    simp [hid, hunf]
  have hcons' :
      (p.consentPrivacy != some "on" || p.consentAge != some "on") = false := by
    simp [h1, h2]
  rw [vote_accepted st sess p now enqOk rec he hreg hc' hcons']
  exact ⟨rfl, rfl⟩

/-- Witness for C4: the queue is down (`enqOk = false`) and the
response is still 204 with the record committed. -/
theorem commit_implies_success_response_witness :
    (vote (run [Op.register "a" "x"]) "a" (okPayload "a" "x" "PL")
        7 true false).1 = .noContent ∧
    (vote (run [Op.register "a" "x"]) "a" (okPayload "a" "x" "PL")
        7 true false).2.store =
      storePut (run [Op.register "a" "x"]).store "a"
        (newVoteRec (okPayload "a" "x" "PL") 7
          (getIndex (run [Op.register "a" "x"]).cache "PL").2) :=
  commit_implies_success_response (run [Op.register "a" "x"]) "a"
    (okPayload "a" "x" "PL") 7 { id := "x", email := "a" }
    (by decide) rfl rfl rfl rfl rfl false

/-- C10 counterexample: with a backup destination fully configured but
a finalized job record whose `confirmed` field is not set, the worker
issues no backup call — a configured destination alone does not imply
the record is forwarded. -/
theorem backup_skipped_unconfirmed_cex :
    (processJob { url := some "u", token := some "t" } true true
      { id := "x", email := "a", nationality := some "PL",
        created := some 1, index := some 1 }).backupCall = none := by
  decide

/-- C10 amended: the mail send is always attempted and its outcome
cannot influence the backup call (and the backup runs after the mail,
so neither blocks the other); the full record is forwarded with the
bearer token exactly when the destination is configured (url and token
both set) and the record's `confirmed` flag is truthy. -/
theorem worker_effects_independent (cfg : BackupConfig)
    (emailOk backupOk : Bool) (job : VoteRecord) :
    (processJob cfg emailOk backupOk job).emailAttempted = true ∧
    (processJob cfg emailOk backupOk job).backupCall =
      (processJob cfg (!emailOk) backupOk job).backupCall ∧
    ((cfg.url.isSome && cfg.token.isSome && job.confirmed) = true →
      (processJob cfg emailOk backupOk job).backupCall =
        some { url := cfg.url.getD "", body := job,
               bearer := cfg.token.getD "" }) := by
  refine ⟨rfl, rfl, fun hgate => ?_⟩
  simp [processJob, hgate]

/-- Witness for the amended C10: configured destination, confirmed
record, failing mail send — the backup call is still issued. -/
theorem worker_effects_independent_witness :
    ((({ url := some "u", token := some "t" } : BackupConfig).url.isSome &&
      ({ url := some "u", token := some "t" } : BackupConfig).token.isSome &&
      ({ id := "x", email := "a", confirmed := true } : VoteRecord).confirmed)
        = true) ∧
    (processJob { url := some "u", token := some "t" } false true
      { id := "x", email := "a", confirmed := true }).backupCall =
      some { url := "u", body := { id := "x", email := "a", confirmed := true },
             bearer := "t" } :=
  ⟨by decide,
   (worker_effects_independent { url := some "u", token := some "t" } false true
      { id := "x", email := "a", confirmed := true }).2.2 (by decide)⟩

/-- C7: after any sequence of operations, the stats snapshot's global
count equals the sum of the per-country counts it exposes, and equals
the number of finalized records in the Durable Store. -/
theorem stats_global_count_consistent (ops : List Op) :
    (listStats (run ops)).global.count =
      ((listStats (run ops)).country.map CountryStats.count).sum ∧
    (listStats (run ops)).global.count = totalFinalized (run ops).store :=
  ⟨(goodState_run ops).statsSum, (goodState_run ops).statsTotal⟩

/-- C9 counterexample: after `tieOps`, `PL` and `DE` are tied at two
votes each but the stats list shows `DE` before `PL`, even though
`PL`'s aggregate was inserted into the cache first — the tie is not
broken by insertion order. -/
theorem tie_break_not_insertion_order_cex :
    (run tieOps).stats.country.map CountryStats.code = ["DE", "PL"] ∧
    (run tieOps).stats.country.map CountryStats.count = [2, 2] ∧
    creationOrder tieOps = ["PL", "DE"] := by
  decide

/-- C9 amended: after any sequence of operations the cache and the
stats view are sorted by vote count descending; the sort is the stable
sort of the previous list order, so tied countries keep their pre-sort
relative order, which need not be their insertion order. -/
theorem country_list_sorted_desc (ops : List Op) :
    ((run ops).cache.Pairwise (fun a b => b.vote.length ≤ a.vote.length)) ∧
    ((run ops).stats.country.Pairwise (fun a b => b.count ≤ a.count)) :=
  ⟨(goodState_run ops).cacheSorted, (goodState_run ops).statsSorted⟩

/-- C1: for every country, the `index` values of its finalized records
form a permutation of `[1, ..., n]` for `n` the number of its finalized
records — the exact set `{1, ..., n}`, no gaps, no duplicates, and
untouched by cache re-sorting, which never writes to the store.
Moreover the next accepted submission for the country is assigned index
`n + 1`, strictly greater than every existing index (commit order). -/
theorem index_values_exact_range (ops : List Op) (c : String) :
    (finalizedIndices (run ops).store c).Perm
      (range1 (countFinalized (run ops).store c)) ∧
    (∀ sess p now enqOk rec, p.email = sess →
      storeGet (run ops).store sess = some rec →
      p.id = rec.id → rec.created = none →
      p.consentPrivacy = some "on" → p.consentAge = some "on" →
      p.nationality = c →
      (storeGet (vote (run ops) sess p now true enqOk).2.store sess).map
          VoteRecord.index =
        some (some (countFinalized (run ops).store c + 1)) ∧
      ∀ i ∈ finalizedIndices (run ops).store c,
        i < countFinalized (run ops).store c + 1) := by
  have hg := goodState_run ops
  refine ⟨hg.idxPerm c, ?_⟩
  intro sess p now enqOk rec he hr hid hunf h1 h2 hnat
  subst hnat
  have hc' : (p.id != rec.id || rec.created.isSome) = false := by
    simp [hid, hunf]
  have hcons' :
      (p.consentPrivacy != some "on" || p.consentAge != some "on") = false := by
    simp [h1, h2]
  have hidx : (getIndex (run ops).cache p.nationality).2 =
      countFinalized (run ops).store p.nationality + 1 := by
    rw [getIndex_snd_eq, ← cSum_eq_countryVotes_length _ _ hg.codesNodup,
      hg.cacheCount p.nationality]
  constructor
  · rw [vote_accepted (run ops) sess p now enqOk rec he hr hc' hcons']
    have key : (storeGet (storePut (run ops).store sess
        (newVoteRec p now (getIndex (run ops).cache p.nationality).2)) sess).map
          VoteRecord.index =
        some (some (countFinalized (run ops).store p.nationality + 1)) := by
      rw [storeGet_storePut_self]
      simp [newVoteRec, hidx]
    exact key
  · intro i hi
    have hmem := (hg.idxPerm p.nationality).mem_iff.mp hi
    have := mem_range1 i _ hmem
    omega

/-- Witness for C1: the first vote for `PL` receives index `n + 1 = 1`
and exceeds all (zero) existing indices. -/
theorem index_values_exact_range_witness :
    (storeGet (vote (run [Op.register "b" "y"]) "b" (okPayload "b" "y" "PL")
        3 true true).2.store "b").map VoteRecord.index =
      some (some (countFinalized (run [Op.register "b" "y"]).store "PL" + 1)) ∧
    ∀ i ∈ finalizedIndices (run [Op.register "b" "y"]).store "PL",
      i < countFinalized (run [Op.register "b" "y"]).store "PL" + 1 :=
  (index_values_exact_range [Op.register "b" "y"] "PL").2 "b"
    (okPayload "b" "y" "PL") 3 true { id := "y", email := "b" }
    rfl (by decide) rfl rfl rfl rfl rfl

/-- C6 counterexample: after six accepted votes for `PL`, the aggregate
returned by `listVotes` (the spec's `findCountry`) holds six entries —
the cached list is not truncated to the cap of 5. -/
theorem findCountry_uncapped_cex :
    ((listVotes (run sixPL) "PL").map (fun c => c.vote.length)) = some 6 ∧
    ¬ (∀ c ∈ (run sixPL).cache, c.vote.length ≤ 5) := by
  decide

/-- C6 amended: an accepted vote prepends the public projection to the
country's cached vote list with no truncation — so `findCountry` can
return arbitrarily many entries — while the stats snapshot is what caps
each country's exposed recent list at 5. -/
theorem prepend_uncapped_stats_capped (ops : List Op) (sess : String)
    (p : Payload) (now : Nat) (enqOk : Bool) (rec : VoteRecord)
    (hreg : storeGet (run ops).store sess = some rec) (he : p.email = sess)
    (hid : p.id = rec.id) (hunf : rec.created = none)
    (h1 : p.consentPrivacy = some "on") (h2 : p.consentAge = some "on") :
    countryVotes (vote (run ops) sess p now true enqOk).2.cache p.nationality =
      extractPublicPart (newVoteRec p now
        ((countryVotes (run ops).cache p.nationality).length + 1)) ::
        countryVotes (run ops).cache p.nationality ∧
    ∀ cs ∈ (vote (run ops) sess p now true enqOk).2.stats.country,
      cs.vote.length ≤ 5 := by
  have hg := goodState_run ops
  have hc' : (p.id != rec.id || rec.created.isSome) = false := by
    simp [hid, hunf]
  have hcons' :
      (p.consentPrivacy != some "on" || p.consentAge != some "on") = false := by
    simp [h1, h2]
  rw [vote_accepted (run ops) sess p now enqOk rec he hreg hc' hcons']
  have nodup2 : ((prependVote (getIndex (run ops).cache p.nationality).1
      p.nationality (extractPublicPart (newVoteRec p now
        (getIndex (run ops).cache p.nationality).2))).map Country.code).Nodup := by
    rw [prependVote_map_code]
    exact getIndex_fst_codes_nodup (run ops).cache p.nationality hg.codesNodup
  constructor
  · have key : countryVotes (sortByVotesDesc (prependVote
        (getIndex (run ops).cache p.nationality).1 p.nationality
        (extractPublicPart (newVoteRec p now
          (getIndex (run ops).cache p.nationality).2)))) p.nationality =
        extractPublicPart (newVoteRec p now
          ((countryVotes (run ops).cache p.nationality).length + 1)) ::
          countryVotes (run ops).cache p.nationality := by
      rw [countryVotes_of_perm nodup2 (sortByVotesDesc_perm _) p.nationality,
        countryVotes_prependVote _ _ _ (getIndex_fst_any _ _),
        countryVotes_getIndex, getIndex_snd_eq]
    exact key
  · exact createStats_vote_le _

/-- Witness for the amended C6: the first accepted vote for `PL` is
prepended to the (empty) cached list and the stats stay within cap. -/
theorem prepend_uncapped_stats_capped_witness :
    countryVotes (vote (run [Op.register "a" "x"]) "a" (okPayload "a" "x" "PL")
        3 true true).2.cache "PL" =
      extractPublicPart (newVoteRec (okPayload "a" "x" "PL") 3
        ((countryVotes (run [Op.register "a" "x"]).cache "PL").length + 1)) ::
        countryVotes (run [Op.register "a" "x"]).cache "PL" ∧
    ∀ cs ∈ (vote (run [Op.register "a" "x"]) "a" (okPayload "a" "x" "PL")
        3 true true).2.stats.country, cs.vote.length ≤ 5 :=
  prepend_uncapped_stats_capped [Op.register "a" "x"] "a" (okPayload "a" "x" "PL")
    3 true { id := "x", email := "a" } (by decide) rfl rfl rfl rfl rfl
